import Mathlib

/-!
Verification of the delivery-and-recovery subsystem of the Auklet Python
agent (`auklet/base.py`), as a shallow embedding in Lean 4.

A record (a JSON object written to / read from the spool file) is modelled
as an association list of string keys and string values; `json.dumps`
followed by `json.loads` on such an object is the identity, so the spool
file is modelled as the list of records currently on disk, one per line.

The mutually recursive pair `Client.produce` / `Client._produce_from_local`
is modelled by a single fuel-indexed interpreter `run`: `none` models a
computation that exceeds any recursion bound (Python's `RecursionError`),
`some (Out.ret s)` a normal return with final state `s`, and
`some (Out.exn s)` an uncaught Python exception (e.g. `KeyError` from
`self.producer_types[data_type]`) escaping the call with state `s`.

External effects are oracles in `Env`:
  * `producerUp`   — whether `self.producer is not None`;
  * `sendOk i`     — whether the i-th call to `producer.send` in this
                     top-level call returns normally (otherwise it raises
                     `KafkaError`); the index is the number of sends
                     attempted so far, i.e. the current log length;
  * `writeOk`      — whether `open(self.offline_fliename, "a")`+writes in
                     `_write_to_local` succeed (otherwise `IOError`);
  * `readOk`       — whether `open(self.offline_fliename, "r+")` in
                     `_produce_from_local` succeeds (otherwise `IOError`).

The spool-file byte level is tracked faithfully at line granularity:
`_produce_from_local` reads the whole file (leaving the file position at
the end of the content that was read), replays each line, and then calls
`truncate()` at that position — modelled by `List.take` of the length of
the content read at open time.  All writes are whole-line appends, so every
file position the code uses falls on a line boundary.
-/

namespace Auklet

/-- A JSON object stored in / read from the spool: string keys to string
values (the value type is irrelevant to the code, which only inspects
keys). -/
abbrev Rec := List (String × String)

/-- The keys of a record, `loaded.keys()`. -/
def recKeys (r : Rec) : List String := r.map Prod.fst

/-- The test `'stackTrace' in loaded.keys()` from `_produce_from_local`. -/
def hasStackTrace (r : Rec) : Bool := (recKeys r).contains "stackTrace"

/-- The channel `_produce_from_local` replays a spooled line on:
`"event"` when the parsed record has a `stackTrace` key, else the
default `"monitoring"` of `produce`. -/
def classify (r : Rec) : String := if hasStackTrace r then "event" else "monitoring"

/-- The keys of `self.producer_types` (set once in `_get_kafka_brokers`);
`producer_types[data_type]` raises `KeyError` for any other name. -/
def validChannel (ch : String) : Bool :=
  ch == "monitoring" || ch == "event" || ch == "log"

/-- Client state visible to the delivery core: the spool file content
(one record per line, in file order) and the ordered list of broker send
attempts made so far (channel name, record). -/
structure St where
  spool : List Rec
  log : List (String × Rec)
deriving DecidableEq, Repr

/-- Environment oracles for the external effects of one top-level call. -/
structure Env where
  producerUp : Bool
  sendOk : Nat → Bool
  writeOk : Bool
  readOk : Bool

/-- Outcome of a call: normal return, or an uncaught exception. -/
inductive Out where
  | ret : St → Out
  | exn : St → Out
deriving DecidableEq, Repr

/-- The state carried by an outcome. -/
def outSt : Out → St
  | .ret s => s
  | .exn s => s

/-- `Client._write_to_local(data)`: append one serialized line to the
spool; on `IOError` return `False` (Python), leaving the spool unchanged.
The second component is the Python return value: `none` models `None`
(implicit return on success), `some false` models `return False`. -/
def write_to_local (writeOk : Bool) (data : Rec) (spool : List Rec) :
    List Rec × Option Bool :=
  if writeOk then (spool ++ [data], none) else (spool, some false)

/-- Which method body `run` is executing: `produce data ch` is
`Client.produce(data, data_type=ch)`; `replay` is
`Client._produce_from_local()`; `loop rem` is the `for line in lines`
loop of `_produce_from_local` with `rem` the not-yet-processed lines. -/
inductive Call where
  | produce (data : Rec) (ch : String)
  | replay
  | loop (rem : List Rec)

/-- Fuel-indexed interpreter for the mutually recursive bodies of
`Client.produce` and `Client._produce_from_local` (see module header).
Each recursive step consumes one unit of fuel; `none` means the bound was
exceeded. -/
def run (env : Env) : Nat → Call → St → Option Out
  | 0, _, _ => none
  | n + 1, .produce data ch, st =>
    if env.producerUp then
      if validChannel ch then
        if env.sendOk st.log.length then
          run env n .replay ⟨st.spool, st.log ++ [(ch, data)]⟩
        else
          some (.ret ⟨(write_to_local env.writeOk data st.spool).1,
                      st.log ++ [(ch, data)]⟩)
      else some (.exn st)
    else some (.ret st)
  | n + 1, .replay, st =>
    if env.readOk then
      match run env n (.loop st.spool) st with
      | some (.ret s) => some (.ret ⟨s.spool.take st.spool.length, s.log⟩)
      | other => other
    else some (.ret st)
  | _ + 1, .loop [], st => some (.ret st)
  | n + 1, .loop (r :: rest), st =>
    match run env n (.produce r (classify r)) st with
    | some (.ret s) => run env n (.loop rest) s
    | other => other

/-- `Client.produce(data, data_type)` at a given recursion budget. -/
def produce (env : Env) (fuel : Nat) (data : Rec) (ch : String) (st : St) :
    Option Out :=
  run env fuel (.produce data ch) st

/-- `Client._produce_from_local()` at a given recursion budget. -/
def produce_from_local (env : Env) (fuel : Nat) (st : St) : Option Out :=
  run env fuel .replay st

end Auklet

namespace Auklet

/-! ### Bootstrap (`Client.__init__` and its helpers) -/

/-- Failure modes of client construction, in program order. -/
inductive InitErr where
  | urlError    -- `_get_kafka_brokers`: `urlopen`/parse raised (uncaught)
  | valueError  -- unpacking `get_commit_hash()` raised `ValueError`
  | certError   -- `_get_kafka_certs`: fetch/unzip raised (uncaught)
deriving DecidableEq, Repr

/-- Environment oracles for one run of `Client.__init__`. -/
structure InitEnv where
  configOk : Bool    -- `_get_kafka_brokers` network call and parse succeed
  versionOk : Bool   -- `open(".auklet/version", "r")` succeeds
  certsOk : Bool     -- `_get_kafka_certs` succeeds (returns True)
  producerOk : Bool  -- `KafkaProducer(...)` does not raise `KafkaError`
deriving DecidableEq, Repr

/-- The part of the constructed client the claims need. -/
structure ClientSt where
  producerUp : Bool  -- `self.producer is not None` after `__init__`
deriving DecidableEq, Repr

/-- `get_commit_hash()`: on success a pair `(file contents, abs path)`
(`Sum.inl`); on `IOError` the single string `""` (`Sum.inr`). -/
def get_commit_hash (versionOk : Bool) : Sum (String × String) String :=
  if versionOk then Sum.inl ("deadbeef", "/app/") else Sum.inr ""

/-- Python tuple-unpacking `a, b = s` of a string `s`: succeeds exactly
when `s` has two characters, else raises `ValueError`. -/
def unpackPair (s : String) : Except InitErr (String × String) :=
  if s.length = 2 then
    Except.ok (String.mk [s.toList.getD 0 ' '], String.mk [s.toList.getD 1 ' '])
  else Except.error .valueError

/-- `Client.__init__`: fetch broker config (uncaught on failure), create
the spool directory, unpack `get_commit_hash()`, fetch certificates
(uncaught on failure), then build the producer, catching only
`KafkaError` (`except KafkaError: pass`), which leaves
`self.producer = None`. -/
def initClient (env : InitEnv) : Except InitErr ClientSt := do
  if env.configOk = false then throw .urlError
  let _ ← (match get_commit_hash env.versionOk with
           | .inl p => Except.ok p
           | .inr s => unpackPair s)
  if env.certsOk = false then throw .certError
  if env.producerOk then pure ⟨true⟩ else pure ⟨false⟩

/-- Whether an `Except` is a normal (non-raising) result. -/
def isOkB {e a : Type} : Except e a → Bool
  | .ok _ => true
  | .error _ => false

/-! ### Certificate extraction (`Client._get_kafka_certs`) -/

/-- `ZipFile.open(name)` resolves a name through `NameToInfo`, which maps
each name to the **last** archive entry bearing it. -/
def lookupLastBytes (archive : List (String × String)) (k : String) : String :=
  (((archive.filter (fun e => e.1 == k)).getLast?).map Prod.snd).getD ""

/-- The file writes performed by `_get_kafka_certs` given the zip archive
as a list of (entry name, entry bytes): for each entry `e` in
`mlz.filelist`, write `mlz.open(e.filename).read()` to
`"tmp/%s.pem" % e.filename`. -/
def get_kafka_certs_writes (archive : List (String × String)) :
    List (String × String) :=
  archive.map (fun e => ("tmp/" ++ e.1 ++ ".pem", lookupLastBytes archive e.1))

/-- Whether a send attempt of record `a` (on any channel) occurs in a send
log. -/
def sent (a : Rec) (log : List (String × Rec)) : Bool :=
  log.any (fun p => p.2 == a)

/-- `logOrdered a b log`: in the send log, no send of `b` occurs before
the first send of `a` — i.e. every send of `b` is preceded by a send of
`a`. -/
def logOrdered (a b : Rec) : List (String × Rec) → Bool
  | [] => true
  | p :: rest => if p.2 == a then true else p.2 != b && logOrdered a b rest

/-- `abefore a b l`: in the list `l`, no occurrence of `b` precedes the
first occurrence of `a` (scanning from the head, everything up to and
including the first `a` differs from `b`).  This is the "record `a` was
appended before record `b`" hypothesis on a spool. -/
def abefore (a b : Rec) : List Rec → Bool
  | [] => true
  | r :: rest => r != b && (r == a || abefore a b rest)

/-! ### Concrete fixtures used in counterexamples and witnesses -/

/-- A metric-shaped record: no `stackTrace` key. -/
def mRec : Rec := [("k", "1")]

/-- An event-shaped record: has a `stackTrace` key. -/
def eRec : Rec := [("stackTrace", "x")]

/-- A record handed to a live `produce` call. -/
def dRec : Rec := [("v", "1")]

/-- Channel up; the first send (the live one) succeeds, every later send
(i.e. every replayed send) raises `KafkaError`; spool I/O succeeds. -/
def envC1 : Env := ⟨true, fun i => i == 0, true, true⟩

/-- Channel up, every send succeeds, spool I/O succeeds. -/
def envAllOk : Env := ⟨true, fun _ => true, true, true⟩

/-- Channel up, every send raises `KafkaError`, spool I/O succeeds. -/
def envNoSend : Env := ⟨true, fun _ => false, true, true⟩

/-- No working broker connection: `self.producer is None`. -/
def envDown : Env := ⟨false, fun _ => true, true, true⟩

end Auklet

namespace Auklet

/-! ### Basic facts about the interpreter -/

/-- The channel `_produce_from_local` picks for a spooled line is always a
key of `producer_types`. -/
theorem validChannel_classify (r : Rec) : validChannel (classify r) = true := by
  unfold classify
  cases hasStackTrace r <;> rfl

/-- With every send succeeding and a non-empty spool, the mutual recursion
`produce` ↔ `_produce_from_local` never completes at any recursion budget:
each successful replayed send re-enters a full replay of the still
untruncated spool. -/
theorem run_allOk_fuel_out : ∀ (n : Nat) (c : Call) (st : St),
    st.spool ≠ [] →
    (∀ r ch, c = .produce r ch → validChannel ch = true) →
    (∀ rem, c = .loop rem → rem ≠ []) →
    run envAllOk n c st = none := by
  intro n
  induction n with
  | zero => intro c st _ _ _; cases c <;> rfl
  | succ n ih =>
    intro c st hsp hch hrem
    cases c with
    | produce data ch =>
      have hv := hch data ch rfl
      simp only [run, envAllOk, hv, if_true]
      exact ih .replay ⟨st.spool, st.log ++ [(ch, data)]⟩ hsp
        (by intro _ _ h; cases h) (by intro _ h; cases h)
    | replay =>
      have hloop := ih (.loop st.spool) st hsp
        (by intro _ _ h; cases h) (by intro rem h; cases h; exact hsp)
      simp only [run, envAllOk, if_true]
      simp only [envAllOk] at hloop
      rw [hloop]
    | loop rem =>
      have hne := hrem rem rfl
      match rem, hne with
      | r :: rest, _ =>
        have hp := ih (.produce r (classify r)) st hsp
          (by intro r' ch' h; cases h; exact validChannel_classify r)
          (by intro _ h; cases h)
        simp only [run]
        rw [hp]

/-- A spool write leaves the previous content as a prefix. -/
theorem write_to_local_keeps_front (w : Bool) (data : Rec) (spool : List Rec) :
    spool <+: (write_to_local w data spool).1 := by
  cases w
  · exact List.prefix_refl spool
  · exact List.prefix_append spool [data]

/-- Every returning execution leaves the initial spool as a prefix of the
final spool; a returning `_produce_from_local` leaves the spool exactly as
it found it — its final `truncate()` happens at the file position `read()`
left, i.e. the end of the content present at open time, so it merely
discards anything appended during the pass. -/
theorem run_spool_keeps_front (env : Env) :
    ∀ (n : Nat) (c : Call) (st s : St),
      run env n c st = some (Out.ret s) →
      st.spool <+: s.spool ∧ (c = Call.replay → s.spool = st.spool) := by
  intro n
  induction n with
  | zero => intro c st s h; cases c <;> cases h
  | succ n ih =>
    intro c st s h
    cases c with
    | produce data ch =>
      refine ⟨?_, fun hc => by cases hc⟩
      simp only [run] at h
      cases hup : env.producerUp <;> simp [hup] at h
      · subst h; exact List.prefix_refl _
      · cases hvc : validChannel ch <;> simp [hvc] at h
        cases hsend : env.sendOk st.log.length <;> simp [hsend] at h
        · subst h
          exact write_to_local_keeps_front env.writeOk data st.spool
        · have := (ih .replay ⟨st.spool, st.log ++ [(ch, data)]⟩ s h).2 rfl
          rw [this]
    | replay =>
      simp only [run] at h
      cases hro : env.readOk <;> simp [hro] at h
      · subst h; exact ⟨List.prefix_refl _, fun _ => rfl⟩
      · cases hm : run env n (.loop st.spool) st <;> rw [hm] at h
        · cases h
        · rename_i out
          cases out with
          | ret s1 =>
            simp only [Option.some.injEq, Out.ret.injEq] at h
            have hpre := (ih (.loop st.spool) st s1 hm).1
            have htake : s1.spool.take st.spool.length = st.spool :=
              (List.prefix_iff_eq_take.mp hpre).symm
            subst h
            exact ⟨by rw [htake], fun _ => htake⟩
          | exn s1 => cases h
    | loop rem =>
      refine ⟨?_, fun hc => by cases hc⟩
      cases rem with
      | nil =>
        simp only [run, Option.some.injEq, Out.ret.injEq] at h
        subst h; exact List.prefix_refl _
      | cons r rest =>
        simp only [run] at h
        cases hp : run env n (.produce r (classify r)) st <;> rw [hp] at h
        · cases h
        · rename_i out
          cases out with
          | ret s1 =>
            exact ((ih (.produce r (classify r)) st s1 hp).1).trans
              ((ih (.loop rest) s1 s h).1)
          | exn s1 => cases h

/-- The send log only grows: a returning or raising execution leaves the
initial log as a prefix of the final one. -/
theorem run_log_mono (env : Env) :
    ∀ (n : Nat) (c : Call) (st : St) (out : Out),
      run env n c st = some out →
      ∃ d, (outSt out).log = st.log ++ d := by
  intro n
  induction n with
  | zero => intro c st out h; cases c <;> cases h
  | succ n ih =>
    intro c st out h
    cases c with
    | produce data ch =>
      simp only [run] at h
      cases hup : env.producerUp <;> simp [hup] at h
      · subst h; exact ⟨[], by simp [outSt]⟩
      · cases hvc : validChannel ch <;> simp [hvc] at h
        · subst h; exact ⟨[], by simp [outSt]⟩
        · cases hsend : env.sendOk st.log.length <;> simp [hsend] at h
          · subst h; exact ⟨[(ch, data)], by simp [outSt]⟩
          · obtain ⟨d, hd⟩ := ih .replay ⟨st.spool, st.log ++ [(ch, data)]⟩
              out h
            exact ⟨(ch, data) :: d, by simpa using hd⟩
    | replay =>
      simp only [run] at h
      cases hro : env.readOk <;> simp [hro] at h
      · subst h; exact ⟨[], by simp [outSt]⟩
      · cases hm : run env n (.loop st.spool) st <;> rw [hm] at h
        · cases h
        · rename_i out1
          obtain ⟨d, hd⟩ := ih (.loop st.spool) st out1 hm
          cases out1 with
          | ret s1 =>
            simp only [Option.some.injEq] at h
            subst h
            exact ⟨d, by simpa [outSt] using hd⟩
          | exn s1 =>
            simp only [Option.some.injEq] at h
            subst h
            exact ⟨d, hd⟩
    | loop rem =>
      cases rem with
      | nil =>
        simp only [run, Option.some.injEq] at h
        subst h; exact ⟨[], by simp [outSt]⟩
      | cons r rest =>
        simp only [run] at h
        cases hp : run env n (.produce r (classify r)) st <;> rw [hp] at h
        · cases h
        · rename_i out1
          cases out1 with
          | ret s1 =>
            obtain ⟨d1, hd1⟩ := ih (.produce r (classify r)) st (.ret s1) hp
            obtain ⟨d2, hd2⟩ := ih (.loop rest) s1 out h
            refine ⟨d1 ++ d2, ?_⟩
            simp only [outSt] at hd1
            rw [hd2, hd1, List.append_assoc]
          | exn s1 =>
            simp only [Option.some.injEq] at h
            subst h
            exact ih (.produce r (classify r)) st (.exn s1) hp

/-- In a channel-up execution where every `produce` call is made on the
channel `_produce_from_local` computes from the record's shape, every send
appended to the log is routed by shape, each produced record's attempt is
logged, and a returning loop/replay has attempted every line it was given
(every spooled record, for a replay). -/
theorem run_log_routed (env : Env) (hup : env.producerUp = true)
    (hro : env.readOk = true) :
    ∀ (n : Nat) (c : Call) (st : St) (out : Out),
      run env n c st = some out →
      (∀ r ch, c = Call.produce r ch → ch = classify r) →
      (∃ d, (outSt out).log = st.log ++ d ∧ ∀ p ∈ d, p.1 = classify p.2) ∧
      (∀ r ch, c = Call.produce r ch → (ch, r) ∈ (outSt out).log) ∧
      (∀ s, out = Out.ret s →
        (∀ rem, c = Call.loop rem → ∀ r ∈ rem, (classify r, r) ∈ s.log) ∧
        (c = Call.replay → ∀ r ∈ st.spool, (classify r, r) ∈ s.log)) := by
  intro n
  induction n with
  | zero => intro c st out h; cases c <;> cases h
  | succ n ih =>
    intro c st out h hcc
    cases c with
    | produce data ch =>
      have hch : ch = classify data := hcc data ch rfl
      have hvc : validChannel ch = true := hch ▸ validChannel_classify data
      simp only [run, hup, if_true, hvc] at h
      cases hsend : env.sendOk st.log.length <;> simp [hsend] at h
      · subst h
        refine ⟨⟨[(ch, data)], by simp [outSt], by simp [hch]⟩, ?_, ?_⟩
        · intro r c hrc
          cases hrc
          simp [outSt]
        · intro s hs
          exact ⟨(fun rem hrem => nomatch hrem), (fun hrep => nomatch hrep)⟩
      · have hrec := ih .replay ⟨st.spool, st.log ++ [(ch, data)]⟩ out h
          (fun _ _ hc => nomatch hc)
        obtain ⟨⟨d, hd, hdc⟩, _, _⟩ := hrec
        refine ⟨⟨(ch, data) :: d, by simpa using hd, ?_⟩, ?_, ?_⟩
        · intro p hp
          rcases List.mem_cons.mp hp with hp | hp
          · subst hp; exact hch
          · exact hdc p hp
        · intro r c hrc
          cases hrc
          rw [hd]
          exact List.mem_append_left _ (List.mem_append_right _
            (List.mem_singleton.mpr rfl))
        · intro s hs
          exact ⟨(fun rem hrem => nomatch hrem), (fun hrep => nomatch hrep)⟩
    | replay =>
      simp only [run, hro, if_true] at h
      cases hm : run env n (.loop st.spool) st <;> rw [hm] at h
      · cases h
      · rename_i out1
        have hrec := ih (.loop st.spool) st out1 hm
          (fun _ _ hc => nomatch hc)
        obtain ⟨⟨d, hd, hdc⟩, _, hcov⟩ := hrec
        cases out1 with
        | ret s1 =>
          simp only [Option.some.injEq] at h
          subst h
          refine ⟨⟨d, by simpa [outSt] using hd, hdc⟩,
                  (fun r c hrc => nomatch hrc), ?_⟩
          intro s hs
          cases hs
          refine ⟨(fun rem hrem => nomatch hrem), fun _ => ?_⟩
          exact fun r hr => ((hcov s1 rfl).1 st.spool rfl) r hr
        | exn s1 =>
          simp only [Option.some.injEq] at h
          subst h
          exact ⟨⟨d, hd, hdc⟩, (fun r c hrc => nomatch hrc),
                 (fun s hs => nomatch hs)⟩
    | loop rem =>
      cases rem with
      | nil =>
        simp only [run, Option.some.injEq] at h
        subst h
        refine ⟨⟨[], by simp [outSt], by simp⟩,
                (fun r c hrc => nomatch hrc), ?_⟩
        intro s hs
        cases hs
        refine ⟨?_, (fun hrep => nomatch hrep)⟩
        intro rem2 hrem
        cases hrem
        intro r hr
        cases hr
      | cons r rest =>
        simp only [run] at h
        cases hp : run env n (.produce r (classify r)) st <;> rw [hp] at h
        · cases h
        · rename_i out1
          have hprec := ih (.produce r (classify r)) st out1 hp
            (by intro r2 ch2 hc; cases hc; rfl)
          obtain ⟨⟨d1, hd1, hd1c⟩, hatt, _⟩ := hprec
          cases out1 with
          | ret s1 =>
            have hlrec := ih (.loop rest) s1 out h
              (fun _ _ hc => nomatch hc)
            obtain ⟨⟨d2, hd2, hd2c⟩, _, hcov⟩ := hlrec
            refine ⟨⟨d1 ++ d2, ?_, ?_⟩, (fun r2 c hrc => nomatch hrc), ?_⟩
            · rw [hd2]
              simp only [outSt] at hd1
              rw [hd1, List.append_assoc]
            · intro p hp2
              rcases List.mem_append.mp hp2 with hp2 | hp2
              · exact hd1c p hp2
              · exact hd2c p hp2
            · intro s hs
              refine ⟨?_, (fun hrep => nomatch hrep)⟩
              intro rem2 hrem
              cases hrem
              intro r2 hr2
              have hslog : s.log = s1.log ++ d2 := by
                rw [hs] at hd2
                simpa [outSt] using hd2
              rcases List.mem_cons.mp hr2 with hr2 | hr2
              · subst hr2
                have hmem := hatt r2 (classify r2) rfl
                simp only [outSt] at hmem
                rw [hslog]
                exact List.mem_append_left _ hmem
              · exact ((hcov s hs).1 rest rfl) r2 hr2
          | exn s1 =>
            simp only [Option.some.injEq] at h
            subst h
            exact ⟨⟨d1, hd1, hd1c⟩, (fun r2 c hrc => nomatch hrc),
                   (fun s hs => nomatch hs)⟩

/-- The head of a list satisfying `abefore` is not `b`. -/
theorem abefore_head (a b r : Rec) (rest : List Rec)
    (h : abefore a b (r :: rest) = true) : (r == b) = false := by
  simp only [abefore, Bool.and_eq_true, bne_iff_ne, ne_eq] at h
  exact beq_eq_false_iff_ne.mpr h.1

/-- A list satisfying `abefore` starts with `a` or its tail satisfies it. -/
theorem abefore_head_or (a b r : Rec) (rest : List Rec)
    (h : abefore a b (r :: rest) = true) :
    (r == a) = true ∨ abefore a b rest = true := by
  simp only [abefore, Bool.and_eq_true, Bool.or_eq_true] at h
  exact h.2

/-- Appending a non-`b` element preserves `abefore`. -/
theorem abefore_append_one (a b x : Rec) (hxb : (x == b) = false) :
    ∀ l, abefore a b l = true → abefore a b (l ++ [x]) = true := by
  intro l
  induction l with
  | nil =>
    intro _
    simp only [List.nil_append, abefore, Bool.and_eq_true, Bool.or_eq_true]
    exact ⟨by simp [bne_iff_ne, beq_eq_false_iff_ne.mp hxb],
           Or.inr trivial⟩
  | cons r rest ih =>
    intro h
    simp only [List.cons_append, abefore, Bool.and_eq_true,
      Bool.or_eq_true] at h ⊢
    refine ⟨h.1, ?_⟩
    rcases h.2 with h2 | h2
    · exact Or.inl h2
    · exact Or.inr (ih h2)

/-- Truncation preserves `abefore`. -/
theorem abefore_take (a b : Rec) :
    ∀ (l : List Rec) (k : Nat), abefore a b l = true →
      abefore a b (l.take k) = true := by
  intro l
  induction l with
  | nil => intro k _; simp [abefore]
  | cons r rest ih =>
    intro k h
    cases k with
    | zero => rfl
    | succ k =>
      simp only [List.take_succ_cons]
      simp only [abefore, Bool.and_eq_true, Bool.or_eq_true] at h ⊢
      refine ⟨h.1, ?_⟩
      rcases h.2 with h2 | h2
      · exact Or.inl h2
      · exact Or.inr (ih k h2)

/-- `sent` is monotone under appending to the log. -/
theorem sent_append (a : Rec) (log d : List (String × Rec))
    (h : sent a log = true) : sent a (log ++ d) = true := by
  simp only [sent, List.any_append, Bool.or_eq_true]
  exact Or.inl h

/-- Logging an attempt of `a` itself makes `sent` true. -/
theorem sent_append_self (a : Rec) (log : List (String × Rec)) (c : String)
    (x : Rec) (hxa : (x == a) = true) : sent a (log ++ [(c, x)]) = true := by
  simp [sent, List.any_append, hxa]

/-- Once `a` has been sent, any extension of the log stays ordered. -/
theorem logOrdered_append_of_sent (a b : Rec) :
    ∀ (log d : List (String × Rec)), sent a log = true →
      logOrdered a b log = true → logOrdered a b (log ++ d) = true := by
  intro log
  induction log with
  | nil => intro d hs _; simp [sent] at hs
  | cons p rest ih =>
    intro d hs ho
    simp only [List.cons_append, logOrdered] at ho ⊢
    cases hpa : (p.2 == a)
    · simp only [hpa] at ho ⊢
      simp only [Bool.false_eq_true, if_false, Bool.and_eq_true] at ho ⊢
      have hs2 : sent a rest = true := by
        simpa [sent, hpa] using hs
      exact ⟨ho.1, ih d hs2 ho.2⟩
    · simp [hpa]

/-- Before `a` was ever sent, logging a non-`b` attempt keeps the log
ordered. -/
theorem logOrdered_append_nb (a b : Rec) (c : String) (x : Rec)
    (hxb : (x == b) = false) :
    ∀ log, logOrdered a b log = true →
      logOrdered a b (log ++ [(c, x)]) = true := by
  intro log
  induction log with
  | nil =>
    intro _
    simp only [List.nil_append, logOrdered]
    cases hxa : (x == a)
    · simp [hxa, hxb, logOrdered, bne_iff_ne,
        beq_eq_false_iff_ne.mp hxb]
    · simp [hxa]
  | cons p rest ih =>
    intro h
    simp only [List.cons_append, logOrdered] at h ⊢
    cases hpa : (p.2 == a)
    · simp only [hpa] at h ⊢
      simp only [Bool.false_eq_true, if_false, Bool.and_eq_true] at h ⊢
      exact ⟨h.1, ih h.2⟩
    · simp [hpa]

/-- A spool write keeps `abefore` when the written record is not `b`. -/
theorem abefore_write (a b data : Rec) (w : Bool) (spool : List Rec)
    (hdb : (data == b) = false) (h : abefore a b spool = true) :
    abefore a b (write_to_local w data spool).1 = true := by
  cases w
  · simpa [write_to_local] using h
  · simpa [write_to_local] using abefore_append_one a b data hdb spool h

/-- Pairwise order invariant: in a channel-up execution starting from a
log in which no `b`-send precedes the first `a`-send, and a spool (and,
for a loop, a remaining-lines list) in which no `b` precedes the first
`a` unless `a` was already sent, the final log never has a `b`-send
before the first `a`-send. -/
theorem run_pair_order (env : Env) (a b : Rec)
    (hup : env.producerUp = true) :
    ∀ (n : Nat) (c : Call) (st : St) (out : Out),
      run env n c st = some out →
      logOrdered a b st.log = true →
      (sent a st.log = true ∨
        (abefore a b st.spool = true ∧
         (∀ r ch, c = Call.produce r ch →
            validChannel ch = true ∧ (r == b) = false) ∧
         (∀ rem, c = Call.loop rem → abefore a b rem = true))) →
      logOrdered a b (outSt out).log = true ∧
      (sent a st.log = true → sent a (outSt out).log = true) ∧
      (sent a (outSt out).log = true ∨
        abefore a b (outSt out).spool = true) ∧
      (∀ r ch, c = Call.produce r ch → validChannel ch = true →
         (r == a) = true → sent a (outSt out).log = true) := by
  intro n
  induction n with
  | zero => intro c st out h; cases c <;> cases h
  | succ n ih =>
    intro c st out h hord hreg
    cases c with
    | produce data ch =>
      simp only [run, hup, if_true] at h
      cases hvc : validChannel ch <;> simp [hvc] at h
      · subst h
        refine ⟨hord, fun hs => hs, ?_, ?_⟩
        · rcases hreg with hs | ⟨hab, _, _⟩
          · exact Or.inl hs
          · exact Or.inr hab
        · intro r c hrc hv
          cases hrc
          rw [hv] at hvc
          cases hvc
      · have hlog1 : logOrdered a b (st.log ++ [(ch, data)]) = true := by
          rcases hreg with hs | ⟨_, hsideP, _⟩
          · exact logOrdered_append_of_sent a b st.log [(ch, data)] hs hord
          · exact logOrdered_append_nb a b ch data
              ((hsideP data ch rfl).2) st.log hord
        cases hsend : env.sendOk st.log.length <;> simp [hsend] at h
        · subst h
          refine ⟨hlog1, ?_, ?_, ?_⟩
          · intro hs
            exact sent_append a st.log [(ch, data)] hs
          · rcases hreg with hs | ⟨hab, hsideP, _⟩
            · exact Or.inl (sent_append a st.log [(ch, data)] hs)
            · exact Or.inr (abefore_write a b data env.writeOk st.spool
                ((hsideP data ch rfl).2) hab)
          · intro r c hrc _ hra
            cases hrc
            exact sent_append_self a st.log ch data hra
        · have hreg1 : sent a (st.log ++ [(ch, data)]) = true ∨
              (abefore a b st.spool = true ∧
               (∀ r c2, Call.replay = Call.produce r c2 →
                  validChannel c2 = true ∧ (r == b) = false) ∧
               (∀ rem, Call.replay = Call.loop rem →
                  abefore a b rem = true)) := by
            rcases hreg with hs | ⟨hab, _, _⟩
            · exact Or.inl (sent_append a st.log [(ch, data)] hs)
            · cases hda : (data == a)
              · exact Or.inr ⟨hab, (fun r c2 hc => nomatch hc),
                  (fun rem hc => nomatch hc)⟩
              · exact Or.inl (sent_append_self a st.log ch data hda)
          have K := ih .replay ⟨st.spool, st.log ++ [(ch, data)]⟩ out h
            hlog1 hreg1
          refine ⟨K.1, ?_, K.2.2.1, ?_⟩
          · intro hs
            exact K.2.1 (sent_append a st.log [(ch, data)] hs)
          · intro r c hrc _ hra
            cases hrc
            exact K.2.1 (sent_append_self a st.log ch data hra)
    | replay =>
      simp only [run] at h
      cases hro : env.readOk <;> simp [hro] at h
      · subst h
        refine ⟨hord, fun hs => hs, ?_, (fun r c hrc => nomatch hrc)⟩
        rcases hreg with hs | ⟨hab, _, _⟩
        · exact Or.inl hs
        · exact Or.inr hab
      · cases hm : run env n (.loop st.spool) st <;> rw [hm] at h
        · cases h
        · rename_i out1
          have hreg1 : sent a st.log = true ∨
              (abefore a b st.spool = true ∧
               (∀ r c2, Call.loop st.spool = Call.produce r c2 →
                  validChannel c2 = true ∧ (r == b) = false) ∧
               (∀ rem, Call.loop st.spool = Call.loop rem →
                  abefore a b rem = true)) := by
            rcases hreg with hs | ⟨hab, _, _⟩
            · exact Or.inl hs
            · exact Or.inr ⟨hab, (fun r c2 hc => nomatch hc),
                (fun rem hc => by cases hc; exact hab)⟩
          have K := ih (.loop st.spool) st out1 hm hord hreg1
          cases out1 with
          | ret s1 =>
            simp only [Option.some.injEq] at h
            subst h
            refine ⟨K.1, K.2.1, ?_, (fun r c hrc => nomatch hrc)⟩
            rcases K.2.2.1 with hs | hab1
            · exact Or.inl hs
            · exact Or.inr (abefore_take a b s1.spool st.spool.length hab1)
          | exn s1 =>
            simp only [Option.some.injEq] at h
            subst h
            exact ⟨K.1, K.2.1, K.2.2.1, (fun r c hrc => nomatch hrc)⟩
    | loop rem =>
      cases rem with
      | nil =>
        simp only [run, Option.some.injEq] at h
        subst h
        refine ⟨hord, fun hs => hs, ?_, (fun r c hrc => nomatch hrc)⟩
        rcases hreg with hs | ⟨hab, _, _⟩
        · exact Or.inl hs
        · exact Or.inr hab
      | cons r rest =>
        simp only [run] at h
        cases hp : run env n (.produce r (classify r)) st <;> rw [hp] at h
        · cases h
        · rename_i out1
          have hregp : sent a st.log = true ∨
              (abefore a b st.spool = true ∧
               (∀ r2 c2, Call.produce r (classify r) = Call.produce r2 c2 →
                  validChannel c2 = true ∧ (r2 == b) = false) ∧
               (∀ rem2, Call.produce r (classify r) = Call.loop rem2 →
                  abefore a b rem2 = true)) := by
            rcases hreg with hs | ⟨hab, _, hsideL⟩
            · exact Or.inl hs
            · refine Or.inr ⟨hab, ?_, (fun rem2 hc => nomatch hc)⟩
              intro r2 c2 hc
              cases hc
              exact ⟨validChannel_classify r,
                abefore_head a b r rest (hsideL (r :: rest) rfl)⟩
          have Kp := ih (.produce r (classify r)) st out1 hp hord hregp
          cases out1 with
          | ret s1 =>
            have hregl : sent a s1.log = true ∨
                (abefore a b s1.spool = true ∧
                 (∀ r2 c2, Call.loop rest = Call.produce r2 c2 →
                    validChannel c2 = true ∧ (r2 == b) = false) ∧
                 (∀ rem2, Call.loop rest = Call.loop rem2 →
                    abefore a b rem2 = true)) := by
              rcases hreg with hs | ⟨hab, _, hsideL⟩
              · exact Or.inl (Kp.2.1 hs)
              · cases hra : (r == a)
                · rcases Kp.2.2.1 with hs1 | hab1
                  · exact Or.inl hs1
                  · refine Or.inr ⟨hab1, (fun r2 c2 hc => nomatch hc), ?_⟩
                    intro rem2 hc
                    cases hc
                    rcases abefore_head_or a b r rest
                        (hsideL (r :: rest) rfl) with hra2 | hrest
                    · rw [hra2] at hra; cases hra
                    · exact hrest
                · exact Or.inl
                    (Kp.2.2.2 r (classify r) rfl (validChannel_classify r)
                      hra)
            have Kl := ih (.loop rest) s1 out h Kp.1 hregl
            refine ⟨Kl.1, ?_, Kl.2.2.1, (fun r2 c2 hrc => nomatch hrc)⟩
            intro hs
            exact Kl.2.1 (Kp.2.1 hs)
          | exn s1 =>
            simp only [Option.some.injEq] at h
            subst h
            exact ⟨Kp.1, Kp.2.1, Kp.2.2.1,
                   (fun r2 c2 hrc => nomatch hrc)⟩

end Auklet

namespace Auklet

/-! ### Claim theorems -/

/-- Claim C1 (code bug): after a completed replay pass triggered by a
successful live send over a one-record spool, the spool is NOT empty: the
pass completes (the replayed send fails), and `truncate()` — called at the
file position `read()` left at the end of the original content — leaves the
original record on disk. -/
theorem replay_truncate_leaves_spool_nonempty :
    produce envC1 5 dRec "monitoring" ⟨[mRec], []⟩ =
      some (Out.ret ⟨[mRec], [("monitoring", dRec), ("monitoring", mRec)]⟩) ∧
    ([mRec] : List Rec) ≠ [] := by
  constructor
  · rfl
  · decide

/-- Claim C2 (code bug): when every replayed send succeeds and the spool is
non-empty, `produce` does not terminate at any recursion budget — the
replay pass is not a single sweep; `produce` and `_produce_from_local`
recurse into each other unboundedly (a `RecursionError` in Python). -/
theorem produce_diverges_on_nonempty_spool (n : Nat) (data : Rec)
    (ch : String) (spool : List Rec) (log : List (String × Rec))
    (hch : validChannel ch = true) (hsp : spool ≠ []) :
    produce envAllOk n data ch ⟨spool, log⟩ = none :=
  run_allOk_fuel_out n (.produce data ch) ⟨spool, log⟩ hsp
    (by intro _ _ h; cases h; exact hch) (by intro _ h; cases h)

/-- Witness for C2 at a concrete input: one metric record in the spool,
every send succeeding, recursion budget 9. -/
theorem produce_diverges_on_nonempty_spool_witness :
    validChannel "monitoring" = true ∧ ([mRec] : List Rec) ≠ [] ∧
    produce envAllOk 9 dRec "monitoring" ⟨[mRec], []⟩ = none :=
  ⟨by decide, by decide,
   produce_diverges_on_nonempty_spool 9 dRec "monitoring" [mRec] []
     (by decide) (by decide)⟩

/-- Claim C3: with no working broker connection (`self.producer is None`),
`produce` is a no-op: it returns normally (no exception), sends nothing,
and leaves the spool (and the whole state) unchanged. -/
theorem produce_channel_down_noop (env : Env) (n : Nat) (data : Rec)
    (ch : String) (st : St) (hdown : env.producerUp = false) :
    produce env (n + 1) data ch st = some (Out.ret st) := by
  simp only [produce, run, hdown, Bool.false_eq_true, if_false]

/-- Witness for C3 at a concrete input. -/
theorem produce_channel_down_noop_witness :
    envDown.producerUp = false ∧
    produce envDown 1 dRec "monitoring" ⟨[mRec], []⟩ =
      some (Out.ret ⟨[mRec], []⟩) :=
  ⟨rfl, produce_channel_down_noop envDown 0 dRec "monitoring" ⟨[mRec], []⟩ rfl⟩

/-- Claim C4, counterexample: a broker/topic config fetch failure is NOT
tolerated — `_get_kafka_brokers()` is called with no surrounding
try/except, so client construction raises instead of completing. -/
theorem initClient_config_failure_raises :
    initClient ⟨false, true, true, true⟩ = Except.error InitErr.urlError ∧
    isOkB (initClient ⟨false, true, true, true⟩) = false := by
  constructor <;> rfl

/-- Claim C4, amended: only broker channel construction failure
(`KafkaError` from `KafkaProducer`) is tolerated, completing construction
with `producer = None` (delivery permanently disabled); config-fetch and
certificate-fetch failures propagate out of `__init__`. -/
theorem initClient_only_producer_failure_tolerated (env : InitEnv)
    (hv : env.versionOk = true) :
    (env.configOk = true → env.certsOk = true →
       initClient env = Except.ok ⟨env.producerOk⟩) ∧
    (env.configOk = false → initClient env = Except.error InitErr.urlError) ∧
    (env.configOk = true → env.certsOk = false →
       initClient env = Except.error InitErr.certError) := by
  obtain ⟨c, v, ce, p⟩ := env
  simp only at hv
  subst hv
  refine ⟨fun h1 h2 => ?_, fun h1 => ?_, fun h1 h2 => ?_⟩
  · have hc : c = true := h1
    have hce : ce = true := h2
    subst hc; subst hce; cases p <;> rfl
  · have hc : c = false := h1
    subst hc; rfl
  · have hc : c = true := h1
    have hce : ce = false := h2
    subst hc; subst hce; rfl

/-- Witness for the amended C4: certificates fetched, producer
construction fails, construction completes with delivery disabled. -/
theorem initClient_only_producer_failure_tolerated_witness :
    (InitEnv.mk true true true false).versionOk = true ∧
    initClient ⟨true, true, true, false⟩ = Except.ok ⟨false⟩ :=
  ⟨rfl, (initClient_only_producer_failure_tolerated ⟨true, true, true, false⟩
          rfl).1 rfl rfl⟩

/-- Claim C9: a spool-append that hits `IOError` returns the boolean
`False` to its caller and leaves the spool unchanged (the record is lost);
a successful append returns `None` (no failure report) and appends exactly
the record. -/
theorem write_to_local_reports_failure (data : Rec) (spool : List Rec) :
    write_to_local false data spool = (spool, some false) ∧
    write_to_local true data spool = (spool ++ [data], none) :=
  ⟨rfl, rfl⟩

/-- Claim C10: when `.auklet/version` cannot be opened, `get_commit_hash`
returns the single string `""`, and `Client.__init__` never completes: the
tuple unpacking raises `ValueError` (when the earlier config fetch
succeeded; if it failed, construction already raised there). -/
theorem initClient_fails_without_version_file (env : InitEnv)
    (hv : env.versionOk = false) :
    isOkB (initClient env) = false ∧
    (env.configOk = true → initClient env = Except.error InitErr.valueError) ∧
    get_commit_hash false = Sum.inr "" := by
  obtain ⟨c, v, ce, p⟩ := env
  simp only at hv
  subst hv
  refine ⟨?_, fun h => ?_, rfl⟩
  · cases c <;> rfl
  · have hc : c = true := h
    subst hc; rfl

/-- Witness for C10 at a concrete input. -/
theorem initClient_fails_without_version_file_witness :
    (InitEnv.mk true false true true).versionOk = false ∧
    isOkB (initClient ⟨true, false, true, true⟩) = false ∧
    initClient ⟨true, false, true, true⟩ = Except.error InitErr.valueError :=
  ⟨rfl,
   (initClient_fails_without_version_file ⟨true, false, true, true⟩ rfl).1,
   (initClient_fails_without_version_file ⟨true, false, true, true⟩ rfl).2.1
     rfl⟩

/-- Claim C8, counterexample: a certificate archive entry named `ck_ca` is
written to `tmp/ck_ca.pem`, not to a file named exactly `ck_ca` under the
credential directory — the code appends a `.pem` suffix to every entry
name. -/
theorem certs_entry_name_gets_pem_suffix :
    get_kafka_certs_writes [("ck_ca", "CA")] = [("tmp/ck_ca.pem", "CA")] ∧
    (("tmp/ck_ca", "CA") ∈ get_kafka_certs_writes [("ck_ca", "CA")] →
      False) := by
  constructor
  · rfl
  · decide

end Auklet

namespace Auklet

/-- With pairwise-distinct entry names, the `NameToInfo`-style lookup of an
entry's name returns the entry's own bytes. -/
theorem lookupLast_of_nodup :
    ∀ (archive : List (String × String)),
      (archive.map Prod.fst).Nodup →
      ∀ e ∈ archive, lookupLastBytes archive e.1 = e.2 := by
  intro archive
  induction archive with
  | nil => intro _ e he; cases he
  | cons a l ih =>
    intro hnd e he
    simp only [List.map_cons, List.nodup_cons] at hnd
    obtain ⟨hna, hndl⟩ := hnd
    rcases List.mem_cons.mp he with he | he
    · subst he
      have hfl : l.filter (fun x => x.1 == e.1) = [] := by
        rw [List.filter_eq_nil_iff]
        intro x hx hxe
        exact hna (by
          simp only [beq_iff_eq] at hxe
          exact hxe ▸ List.mem_map_of_mem Prod.fst hx)
      simp only [lookupLastBytes, List.filter_cons, beq_self_eq_true,
        if_true, hfl]
      rfl
    · have hne : (a.1 == e.1) = false := by
        rw [beq_eq_false_iff_ne]
        intro hcontra
        exact hna (hcontra ▸ List.mem_map_of_mem Prod.fst he)
      have := ih hndl e he
      simp only [lookupLastBytes, List.filter_cons, hne] at this ⊢
      simpa using this

/-- Claim C8, amended: for an archive with pairwise-distinct entry names,
every entry's bytes are written verbatim to the fixed credential
directory, under the entry name with a `.pem` suffix appended
(`tmp/<entry-name>.pem`). -/
theorem certs_writes_entry_bytes_with_pem_suffix
    (archive : List (String × String))
    (hnd : (archive.map Prod.fst).Nodup) :
    get_kafka_certs_writes archive =
      archive.map (fun e => ("tmp/" ++ e.1 ++ ".pem", e.2)) := by
  unfold get_kafka_certs_writes
  exact List.map_congr_left (fun e he => by
    rw [lookupLast_of_nodup archive hnd e he])

/-- Claim C5: every send a replay pass makes is routed by the shape of the
spooled record — `"event"` exactly when its serialized form has a
`stackTrace` key, else `"monitoring"` — and a completed pass has attempted
every record that was in the spool, so a spool-then-replay round trip
preserves the shape-to-channel mapping. -/
theorem replay_routes_records_by_shape (env : Env) (n : Nat) (st s : St)
    (hup : env.producerUp = true) (hro : env.readOk = true)
    (h : produce_from_local env n st = some (Out.ret s)) :
    (∃ d, s.log = st.log ++ d ∧ ∀ p ∈ d, p.1 = classify p.2) ∧
    (∀ r ∈ st.spool, (classify r, r) ∈ s.log) ∧
    (∀ r : Rec, (hasStackTrace r = true → classify r = "event") ∧
                (hasStackTrace r = false → classify r = "monitoring")) := by
  have hrec := run_log_routed env hup hro n .replay st (Out.ret s) h
    (fun _ _ hc => nomatch hc)
  obtain ⟨⟨d, hd, hdc⟩, _, hcov⟩ := hrec
  refine ⟨⟨d, by simpa [outSt] using hd, hdc⟩, ?_, ?_⟩
  · exact (hcov s rfl).2 rfl
  · intro r
    constructor <;> intro hst <;> simp [classify, hst]

/-- Witness for C5: a replay over an event-shaped then a metric-shaped
record (all replayed sends failing, so the pass completes). -/
theorem replay_routes_records_by_shape_witness :
    envNoSend.producerUp = true ∧ envNoSend.readOk = true ∧
    produce_from_local envNoSend 5 ⟨[eRec, mRec], []⟩ =
      some (Out.ret ⟨[eRec, mRec],
        [("event", eRec), ("monitoring", mRec)]⟩) ∧
    ((∃ d, [("event", eRec), ("monitoring", mRec)] =
        ([] : List (String × Rec)) ++ d ∧ ∀ p ∈ d, p.1 = classify p.2) ∧
     (∀ r ∈ [eRec, mRec], (classify r, r) ∈
        [("event", eRec), ("monitoring", mRec)]) ∧
     (∀ r : Rec, (hasStackTrace r = true → classify r = "event") ∧
                 (hasStackTrace r = false → classify r = "monitoring"))) :=
  ⟨rfl, rfl, rfl,
   replay_routes_records_by_shape envNoSend 5 ⟨[eRec, mRec], []⟩
     ⟨[eRec, mRec], [("event", eRec), ("monitoring", mRec)]⟩ rfl rfl rfl⟩

/-- Claim C6: for records `a` then `b` appended to the spool in that order
(no `b` before the first `a`), a replay pass sends them oldest-first: in
the pass's send log, no send of `b` ever precedes the first send of
`a`. -/
theorem replay_preserves_append_order (env : Env) (a b : Rec) (n : Nat)
    (spool : List Rec) (out : Out)
    (hup : env.producerUp = true)
    (hab : abefore a b spool = true)
    (h : produce_from_local env n ⟨spool, []⟩ = some out) :
    logOrdered a b (outSt out).log = true :=
  (run_pair_order env a b hup n .replay ⟨spool, []⟩ out h rfl
    (Or.inr ⟨hab, (fun r ch hc => nomatch hc),
             (fun rem hc => nomatch hc)⟩)).1

/-- Witness for C6: replay over `[eRec, mRec]` with failing sends; the
resulting log attempts `eRec` before `mRec`. -/
theorem replay_preserves_append_order_witness :
    envNoSend.producerUp = true ∧
    abefore eRec mRec [eRec, mRec] = true ∧
    produce_from_local envNoSend 5 ⟨[eRec, mRec], []⟩ =
      some (Out.ret ⟨[eRec, mRec],
        [("event", eRec), ("monitoring", mRec)]⟩) ∧
    logOrdered eRec mRec [("event", eRec), ("monitoring", mRec)] = true :=
  ⟨rfl, by decide, rfl,
   replay_preserves_append_order envNoSend eRec mRec 5 [eRec, mRec]
     (Out.ret ⟨[eRec, mRec], [("event", eRec), ("monitoring", mRec)]⟩)
     rfl (by decide) rfl⟩

/-- Claim C7: in the channel-up state, on a valid channel and with spool
writes succeeding, if the broker send raises then exactly the produced
record is appended to the spool and no replay pass runs (the call returns
right after the append, with the failed attempt as its only send); if the
send succeeds, the call immediately runs a replay pass over the spool
before returning, and whenever it returns, the spool is left exactly as it
was — in particular nothing was appended for this record. -/
theorem produce_send_outcome_dichotomy (env : Env) (n : Nat) (data : Rec)
    (ch : String) (st : St) (hup : env.producerUp = true)
    (hch : validChannel ch = true) (hw : env.writeOk = true) :
    (env.sendOk st.log.length = false →
       produce env (n + 1) data ch st =
         some (Out.ret ⟨st.spool ++ [data], st.log ++ [(ch, data)]⟩)) ∧
    (env.sendOk st.log.length = true →
       produce env (n + 1) data ch st =
         produce_from_local env n ⟨st.spool, st.log ++ [(ch, data)]⟩ ∧
       ∀ s, produce env (n + 1) data ch st = some (Out.ret s) →
         s.spool = st.spool) := by
  constructor
  · intro hsend
    simp [produce, run, hup, hch, hsend, write_to_local, hw]
  · intro hsend
    have heq : produce env (n + 1) data ch st =
        produce_from_local env n ⟨st.spool, st.log ++ [(ch, data)]⟩ := by
      simp only [produce, produce_from_local, run, hup, hch, hsend, if_true]
    refine ⟨heq, fun s hs => ?_⟩
    rw [heq] at hs
    exact (run_spool_keeps_front env n .replay ⟨st.spool, st.log ++ [(ch, data)]⟩
      s hs).2 rfl

/-- Witness for C7 at a concrete input (the C1 environment: live send
succeeds, replayed send fails). -/
theorem produce_send_outcome_dichotomy_witness :
    envC1.producerUp = true ∧ validChannel "monitoring" = true ∧
    envC1.writeOk = true ∧
    ((envC1.sendOk 0 = false →
        produce envC1 5 dRec "monitoring" ⟨[mRec], []⟩ =
          some (Out.ret ⟨[mRec] ++ [dRec], [] ++ [("monitoring", dRec)]⟩)) ∧
     (envC1.sendOk 0 = true →
        produce envC1 5 dRec "monitoring" ⟨[mRec], []⟩ =
          produce_from_local envC1 4 ⟨[mRec], [] ++ [("monitoring", dRec)]⟩ ∧
        ∀ s, produce envC1 5 dRec "monitoring" ⟨[mRec], []⟩ =
          some (Out.ret s) → s.spool = [mRec])) :=
  ⟨rfl, rfl, rfl,
   produce_send_outcome_dichotomy envC1 4 dRec "monitoring" ⟨[mRec], []⟩
     rfl rfl rfl⟩

/-- Witness for the amended C8 at a concrete two-entry archive. -/
theorem certs_writes_entry_bytes_with_pem_suffix_witness :
    (([("ck_ca", "CA"), ("ck_cert", "CERT")] :
        List (String × String)).map Prod.fst).Nodup ∧
    get_kafka_certs_writes [("ck_ca", "CA"), ("ck_cert", "CERT")] =
      [("tmp/ck_ca.pem", "CA"), ("tmp/ck_cert.pem", "CERT")] :=
  ⟨by decide,
   certs_writes_entry_bytes_with_pem_suffix
     [("ck_ca", "CA"), ("ck_cert", "CERT")] (by decide)⟩

end Auklet
